import Mathlib

/-!
Shallow embedding of the SEC filing alert scraper (src/usr/src/app/src/main.js)
and verification of the frozen claims about it.

Modelling conventions:
- JS nullable strings become Option String; JS truthiness on strings is jsTruthy
  (null and the empty string are falsy).
- Timestamp strings are embedded as DateStr: either invalid (new Date(s) is an
  Invalid Date, whose toISOString throws) or valid with an epoch-millisecond
  value (Int, since pre-1970 dates are negative). getTime of a valid date is
  that value.
- Array.prototype.sort with the comparator (ta - tb) is a stable sort by the
  millisecond key; stable sorting by a total preorder has a unique result, so
  it is embedded as the stable List.insertionSort.
- The SHA-1 hex digest is embedded as an abstract hash parameter; concrete runs
  use hashModel, an injective stand-in. No claim depends on actual digest
  values, only on determinism and on which string is hashed.
- External collaborators (HTTP transport, raw XML parsing, key-value store,
  dataset sink, wall clock, full-filing enrichment fetch) are modelled at their
  interface: polls receive the already-parsed raw entries, the cursor store is
  explicit state, emissions are returned as lists; the scrapedAt wall-clock
  field and the fullFilingText enrichment are external inputs and are omitted
  from the alert record.
-/

/-- A timestamp string as seen by the JS Date constructor. -/
inductive DateStr
  | invalid
  | valid (ms : Int)
deriving DecidableEq

/-- A raw feed entry as produced by the excluded wire-format parser. -/
structure RawEntry where
  id : Option String
  title : Option String
  link : Option String
  updated : Option DateStr
  summary : Option String
  content : Option String
deriving DecidableEq

/-- A normalized entry; updated holds the parsed epoch milliseconds. -/
structure NEntry where
  id : String
  title : Option String
  link : Option String
  updated : Option Int
  summary : Option String
  content : Option String
deriving DecidableEq

/-- JS truthiness of a nullable string: null and the empty string are falsy. -/
def jsTruthy : Option String → Bool
  | none => false
  | some s => !(s == "")

/-- JS expression (s or else the empty string). -/
def jsStr : Option String → String
  | none => ""
  | some s => s

/-- JS expression (s or else null): coerces the empty string to null. -/
def jsOrNull (s : Option String) : Option String :=
  if jsTruthy s then s else none

/-- main.js line 152: e.id or e.link or sha1hex of (e.title or e.summary or empty). -/
def canonicalId (hash : String → String) (e : RawEntry) : String :=
  if jsTruthy e.id then jsStr e.id
  else if jsTruthy e.link then jsStr e.link
  else hash (if jsTruthy e.title then jsStr e.title
             else if jsTruthy e.summary then jsStr e.summary
             else "")

/-- main.js lines 150-158: one entry of the normalization map. A present but
unparseable timestamp makes new Date(s).toISOString() throw, which aborts the
whole handler, modelled as the error case. -/
def normalizeEntry (hash : String → String) (e : RawEntry) : Except Unit NEntry :=
  match e.updated with
  | some DateStr.invalid => .error ()
  | some (DateStr.valid t) =>
      .ok { id := canonicalId hash e, title := e.title, link := e.link,
            updated := some t, summary := jsOrNull e.summary,
            content := jsOrNull e.content }
  | none =>
      .ok { id := canonicalId hash e, title := e.title, link := e.link,
            updated := none, summary := jsOrNull e.summary,
            content := jsOrNull e.content }

/-- The normalization map over the batch; the first throw aborts it. -/
def normalizeBatch (hash : String → String) : List RawEntry → Except Unit (List NEntry)
  | [] => .ok []
  | e :: rest =>
      match normalizeEntry hash e with
      | .error u => .error u
      | .ok n =>
          match normalizeBatch hash rest with
          | .error u => .error u
          | .ok ns => .ok (n :: ns)

/-- Sort key, main.js lines 163-164: parsed time when present, else 0. -/
def keyOf (e : NEntry) : Int := e.updated.getD 0

/-- Comparator order of main.js lines 162-166. -/
def entryLe (a b : NEntry) : Prop := keyOf a ≤ keyOf b

instance : DecidableRel entryLe :=
  fun a b => inferInstanceAs (Decidable (keyOf a ≤ keyOf b))

instance : IsTotal NEntry entryLe := ⟨fun a b => Int.le_total (keyOf a) (keyOf b)⟩

instance : IsTrans NEntry entryLe := ⟨fun _ _ _ h1 h2 => le_trans h1 h2⟩

/-- main.js lines 162-166: stable ascending sort by the time key. -/
def sortEntries (l : List NEntry) : List NEntry := List.insertionSort entryLe l

/-- main.js line 169: toConsider = normalized.slice(-Math.abs(maxEntriesPerFeed)).
slice(-0) is slice(0), the whole array; slice(-n) for positive n keeps the
last n elements. -/
def capWindow (m : Int) (l : List NEntry) : List NEntry :=
  let n := m.natAbs
  if n = 0 then l else l.drop (l.length - n)

/-- The capped chronologically ordered window computed from a normalized batch. -/
def windowOf (m : Int) (l : List NEntry) : List NEntry :=
  capWindow m (sortEntries l)

/-- Array.prototype.findIndex as an Option-valued index. -/
def findIdxOf (p : NEntry → Bool) : List NEntry → Option Nat
  | [] => none
  | e :: rest => if p e then some 0 else (findIdxOf p rest).map (· + 1)

/-- main.js lines 186-187: the new-entry set. -/
def newItemsOf (lastSeen : Option String) (w : List NEntry) : List NEntry :=
  match lastSeen with
  | none => w
  | some l =>
      match findIdxOf (fun e => e.id == l) w with
      | some i => w.drop (i + 1)
      | none => w

/-- ASCII lower casing, as applied by toLowerCase to these ASCII inputs. -/
def lowerStr (s : String) : String := String.mk (s.data.map Char.toLower)

/-- Exact character-list match at the head. -/
def ciLead : List Char → List Char → Bool
  | [], _ => true
  | _ :: _, [] => false
  | c :: cs, d :: ds => (c == d) && ciLead cs ds

/-- String.prototype.includes on character lists: sub occurs in the second list. -/
def hasSubstr : List Char → List Char → Bool
  | sub, [] => sub.isEmpty
  | sub, c :: rest => ciLead sub (c :: rest) || hasSubstr sub rest

/-- The JS word-character class of the backslash-b assertion. -/
def isWordChar (c : Char) : Bool := c.isAlphanum || c == '_'

/-- Case-insensitive match of the token at the head of the text. -/
def ciMatchesAt : List Char → List Char → Bool
  | [], _ => true
  | _ :: _, [] => false
  | c :: cs, d :: ds => (Char.toLower c == Char.toLower d) && ciMatchesAt cs ds

def boundaryBefore : Option Char → Bool
  | none => true
  | some c => !isWordChar c

def boundaryAfter : List Char → Bool
  | [] => true
  | c :: _ => !isWordChar c

/-- Scan for a word-boundary-delimited case-insensitive occurrence of the
token. All taxonomy tokens start and end with word characters, for which the
backslash-b assertion means: the adjacent character, when any, is a non-word
character. prev is the character just before the current position. -/
def wbScan (tok : List Char) : Option Char → List Char → Bool
  | prev, [] => boundaryBefore prev && tok.isEmpty
  | prev, c :: rest =>
      (boundaryBefore prev && ciMatchesAt tok (c :: rest)
        && boundaryAfter ((c :: rest).drop tok.length))
      || wbScan tok (some c) rest

/-- main.js line 89-90: the word-boundary regex test for one token. -/
def wbTest (tok s : String) : Bool := wbScan tok.data none s.data

/-- Substring test for the normalization regex 10, optional dash, q (flag i). -/
def testPat10Q (t : String) : Bool :=
  let tl := (lowerStr t).data
  hasSubstr ['1', '0', 'q'] tl || hasSubstr ['1', '0', '-', 'q'] tl

def testPat10K (t : String) : Bool :=
  let tl := (lowerStr t).data
  hasSubstr ['1', '0', 'k'] tl || hasSubstr ['1', '0', '-', 'k'] tl

def testPat8K (t : String) : Bool :=
  let tl := (lowerStr t).data
  hasSubstr ['8', 'k'] tl || hasSubstr ['8', '-', 'k'] tl

/-- The JS whitespace class backslash-s, restricted to the ASCII members that
can occur in these feeds. -/
def isSpaceJS (c : Char) : Bool :=
  c == ' ' || c == '\t' || c == '\n' || c == '\r' || c == '\x0b' || c == '\x0c'

/-- Attempt the pattern Form, backslash-s-star, digits, optional letter (flag i)
at the head; returns the original-cased matched characters. -/
def formMatchAt (s : List Char) : Option (List Char) :=
  if ciMatchesAt ['f', 'o', 'r', 'm'] s && decide (4 ≤ s.length) then
    let rest := s.drop 4
    let ws := rest.takeWhile isSpaceJS
    let rest2 := rest.drop ws.length
    let ds := rest2.takeWhile Char.isDigit
    if ds.isEmpty then none
    else
      let rest3 := rest2.drop ds.length
      let extra := match rest3 with
        | c :: _ => if c.isAlpha then 1 else 0
        | [] => 0
      some (s.take (4 + ws.length + ds.length + extra))
  else none

/-- Leftmost match of the Form pattern, main.js line 99. -/
def formScan : List Char → Option (List Char)
  | [] => none
  | c :: rest =>
      match formMatchAt (c :: rest) with
      | some m => some m
      | none => formScan rest

/-- main.js line 87: the fixed priority-ordered taxonomy token list. -/
def filingTokens : List String :=
  ["10-K", "10Q", "10-Q", "8-K", "8K", "SC 13D", "13F", "20-F", "S-1", "424B", "4", "3"]

/-- main.js lines 85-103: detectFilingType. -/
def detectFilingType (title summary : Option String) : Option String :=
  let candidate := jsStr title ++ " " ++ jsStr summary
  match filingTokens.find? (fun t => wbTest t candidate) with
  | some t =>
      if testPat10Q t then some "10-Q"
      else if testPat10K t then some "10-K"
      else if testPat8K t then some "8-K"
      else some t
  | none =>
      match formScan candidate.data with
      | some cs => some (String.mk cs)
      | none => none

/-- main.js lines 195-197: the case-insensitive type filter. -/
def acceptType (filingTypes : List String) (detected : Option String) : Bool :=
  if filingTypes.isEmpty then true
  else
    let lowered := lowerStr (jsStr detected)
    filingTypes.any (fun t =>
      (lowerStr t == lowered) || hasSubstr (lowerStr t).data lowered.data)

/-- The dataset output record, main.js lines 221-232, without the external
wall-clock and enrichment fields. -/
structure Alert where
  feedUrl : String
  company : Option String
  filingId : String
  filingType : Option String
  title : Option String
  summary : Option String
  link : Option String
  publishedAt : Option Int
deriving DecidableEq

/-- The webhook notification payload, main.js lines 241-248. -/
structure WebhookPayload where
  filingId : String
  filingType : Option String
  title : Option String
  link : Option String
  publishedAt : Option Int
  feedUrl : String
deriving DecidableEq

/-- The recognized configuration options the core logic reads. -/
structure Config where
  filingTypes : List String
  maxEntriesPerFeed : Int
  webhookUrl : String

def mkAlert (feedUrl : String) (company : Option String) (e : NEntry) : Alert :=
  { feedUrl := feedUrl, company := company, filingId := e.id,
    filingType := detectFilingType e.title e.summary, title := e.title,
    summary := e.summary, link := e.link, publishedAt := e.updated }

def mkHook (feedUrl : String) (e : NEntry) : WebhookPayload :=
  { filingId := e.id, filingType := detectFilingType e.title e.summary,
    title := e.title, link := e.link, publishedAt := e.updated,
    feedUrl := feedUrl }

/-- main.js lines 191-257: classify, filter and emit each candidate new entry,
in order. Rejected entries produce nothing but are still traversed. -/
def processNew (cfg : Config) (feedUrl : String) (company : Option String) :
    List NEntry → List Alert × List WebhookPayload
  | [] => ([], [])
  | e :: rest =>
      let tailOut := processNew cfg feedUrl company rest
      if acceptType cfg.filingTypes (detectFilingType e.title e.summary) then
        (mkAlert feedUrl company e :: tailOut.1,
         if cfg.webhookUrl == "" then tailOut.2
         else mkHook feedUrl e :: tailOut.2)
      else tailOut

/-- main.js lines 139-146: the stored cursor value read back; a falsy stored
value leaves lastSeenId null. -/
def readCursor (stored : Option String) : Option String :=
  if jsTruthy stored then stored else none

/-- One poll of one feed, main.js requestHandler lines 126-272. Returns the
cursor value persisted at the end of the poll (the unchanged input when
nothing is written) with the emitted dataset records and webhook payloads.
The error case is the handler throwing, which leaves the store untouched and
emits nothing. -/
def pollFeed (hash : String → String) (cfg : Config) (feedUrl : String)
    (company : Option String) (stored : Option String) (entries : List RawEntry) :
    Except Unit (Option String × List Alert × List WebhookPayload) :=
  if entries.isEmpty then .ok (stored, [], [])
  else
    match normalizeBatch hash entries with
    | .error u => .error u
    | .ok normalized =>
        let lastSeen := readCursor stored
        let toConsider := windowOf cfg.maxEntriesPerFeed normalized
        let newItems := newItemsOf lastSeen toConsider
        let emitted := processNew cfg feedUrl company newItems
        let newLastSeen := match newItems.getLast? with
          | some e => some e.id
          | none => lastSeen
        let latest := match toConsider.getLast? with
          | some e => some e.id
          | none => newLastSeen
        let cursor := if jsTruthy latest then latest else stored
        .ok (cursor, emitted.1, emitted.2)

/-- The cursor state after one poll: a throwing poll leaves it unchanged. -/
def pollNext (hash : String → String) (cfg : Config) (feedUrl : String)
    (company : Option String) (c : Option String) (b : List RawEntry) : Option String :=
  match pollFeed hash cfg feedUrl company c b with
  | .ok r => r.1
  | .error _ => c

/-- A sequence of polls of one feed against the same cursor store; collects
every emitted dataset record. -/
def runPolls (hash : String → String) (cfg : Config) (feedUrl : String)
    (company : Option String) : Option String → List (List RawEntry) →
    Option String × List Alert
  | c, [] => (c, [])
  | c, b :: rest =>
      match pollFeed hash cfg feedUrl company c b with
      | .error _ => runPolls hash cfg feedUrl company c rest
      | .ok r =>
          let tailOut := runPolls hash cfg feedUrl company r.1 rest
          (tailOut.1, r.2.1 ++ tailOut.2)

def cursorOf (r : Except Unit (Option String × List Alert × List WebhookPayload)) :
    Option String :=
  match r with
  | .ok x => x.1
  | .error _ => none

def alertsOf (r : Except Unit (Option String × List Alert × List WebhookPayload)) :
    List Alert :=
  match r with
  | .ok x => x.2.1
  | .error _ => []

def hooksOf (r : Except Unit (Option String × List Alert × List WebhookPayload)) :
    List WebhookPayload :=
  match r with
  | .ok x => x.2.2
  | .error _ => []

/-- The ids of the new-entry set one poll computes (empty for an aborted poll). -/
def pollNewIds (hash : String → String) (m : Int) (c : Option String)
    (b : List RawEntry) : List String :=
  if b.isEmpty then []
  else
    match normalizeBatch hash b with
    | .error _ => []
    | .ok l => (newItemsOf (readCursor c) (windowOf m l)).map (·.id)

def distinctIds : List String → Bool
  | [] => true
  | x :: xs => !(xs.contains x) && distinctIds xs

/-- Over a sequence of polls: every new-entry set has pairwise distinct ids,
none of which was in any earlier new-entry set. This is exactly the premise
under which the bounded-replay policy never re-presents an id. -/
def freshChain (hash : String → String) (cfg : Config) (feedUrl : String)
    (company : Option String) : Option String → List String → List (List RawEntry) → Bool
  | _, _, [] => true
  | c, seen, b :: rest =>
      let ids := pollNewIds hash cfg.maxEntriesPerFeed c b
      distinctIds ids && ids.all (fun i => !(seen.contains i))
        && freshChain hash cfg feedUrl company
             (pollNext hash cfg feedUrl company c b) (seen ++ ids) rest

/-- Injective stand-in for the SHA-1 hex digest used by concrete runs. -/
def hashModel (s : String) : String := String.mk ('#' :: s.data)

/-- Modelled from the amended wording of the id-resolution priority order:
the source id when truthy, else the link when truthy, else a hash of the
title when truthy, else of the summary when truthy, else of the empty
string. Compared against canonicalId, the definition read off the code. -/
def canonicalIdSpec (hash : String → String) (e : RawEntry) : String :=
  if jsTruthy e.id then jsStr e.id
  else if jsTruthy e.link then jsStr e.link
  else if jsTruthy e.title then hash (jsStr e.title)
  else if jsTruthy e.summary then hash (jsStr e.summary)
  else hash ""

/-! Concrete fixtures used by witnesses and counterexamples. -/

def cfgAll : Config := ⟨[], 50, ""⟩

def rA : RawEntry := ⟨some "a", some "Alpha annual report 10-K", none, some (DateStr.valid 1), none, none⟩

def rB : RawEntry := ⟨some "b", some "Beta annual report 10-K", none, some (DateStr.valid 2), none, none⟩

def nA : NEntry := ⟨"a", some "Alpha annual report 10-K", none, some 1, none, none⟩

def nB : NEntry := ⟨"b", some "Beta annual report 10-K", none, some 2, none, none⟩

def rT1 : RawEntry := ⟨none, some "T", none, some (DateStr.valid 1), none, none⟩

def rU2 : RawEntry := ⟨none, some "U", none, some (DateStr.valid 2), none, none⟩

def rT3 : RawEntry := ⟨none, some "T", none, some (DateStr.valid 3), none, none⟩

def eS1 : RawEntry := ⟨none, some "T", none, none, some "S1", none⟩

def eS2 : RawEntry := ⟨none, some "T", none, none, some "S2", none⟩

def rBad : RawEntry := ⟨some "x", some "X filing", none, some DateStr.invalid, none, none⟩

def rQ : RawEntry := ⟨some "q1", some "Quarterly report 10-Q", none, some (DateStr.valid 5), none, none⟩

def nQ : NEntry := ⟨"q1", some "Quarterly report 10-Q", none, some 5, none, none⟩

def rUnk : RawEntry := ⟨some "u1", some "unrelated announcement", none, some (DateStr.valid 5), none, none⟩

def nUnk : NEntry := ⟨"u1", some "unrelated announcement", none, some 5, none, none⟩

def r5 : List RawEntry :=
  [⟨some "e1", none, none, some (DateStr.valid 1), none, none⟩,
   ⟨some "e2", none, none, some (DateStr.valid 2), none, none⟩,
   ⟨some "e3", none, none, some (DateStr.valid 3), none, none⟩,
   ⟨some "e4", none, none, some (DateStr.valid 4), none, none⟩,
   ⟨some "e5", none, none, some (DateStr.valid 5), none, none⟩]

def n5 : List NEntry :=
  [⟨"e1", none, none, some 1, none, none⟩,
   ⟨"e2", none, none, some 2, none, none⟩,
   ⟨"e3", none, none, some 3, none, none⟩,
   ⟨"e4", none, none, some 4, none, none⟩,
   ⟨"e5", none, none, some 5, none, none⟩]

def nE5 : NEntry := ⟨"e5", none, none, some 5, none, none⟩

/-! Helper lemmas about the embedded definitions. -/

theorem jsTruthy_ne_of (o : Option String) (h : jsTruthy o = true) : jsStr o ≠ "" := by
  cases o with
  | none => simp [jsTruthy] at h
  | some s => simpa [jsTruthy, jsStr] using h

theorem hashModel_ne_empty : ∀ s, hashModel s ≠ "" := by
  intro s h
  have h2 := congrArg String.data h
  simp [hashModel] at h2

theorem canonicalId_ne_empty (hash : String → String) (e : RawEntry)
    (hh : ∀ s, hash s ≠ "") : canonicalId hash e ≠ "" := by
  unfold canonicalId
  split
  · exact jsTruthy_ne_of e.id (by assumption)
  · split
    · exact jsTruthy_ne_of e.link (by assumption)
    · exact hh _

theorem normalizeEntry_ok (hash : String → String) (e : RawEntry) (n : NEntry)
    (h : normalizeEntry hash e = .ok n) : n.id = canonicalId hash e := by
  unfold normalizeEntry at h
  cases hu : e.updated with
  | none => rw [hu] at h; cases h; rfl
  | some d =>
    cases d with
    | invalid => rw [hu] at h; cases h
    | valid t => rw [hu] at h; cases h; rfl

theorem normalizeBatch_ids (hash : String → String) :
    ∀ (entries : List RawEntry) (l : List NEntry), (∀ s, hash s ≠ "") →
      normalizeBatch hash entries = .ok l → ∀ n ∈ l, n.id ≠ "" := by
  intro entries
  induction entries with
  | nil => intro l _ h n hn; cases h; cases hn
  | cons e rest ih =>
    intro l hh h n hn
    unfold normalizeBatch at h
    cases hE : normalizeEntry hash e with
    | error u => rw [hE] at h; cases h
    | ok m =>
      rw [hE] at h
      cases hR : normalizeBatch hash rest with
      | error u => rw [hR] at h; cases h
      | ok ms =>
        rw [hR] at h
        cases h
        rcases List.mem_cons.mp hn with h1 | h1
        · rw [h1, normalizeEntry_ok hash e m hE]
          exact canonicalId_ne_empty hash e hh
        · exact ih ms hh hR n h1

theorem normalizeBatch_ok_of (hash : String → String) :
    ∀ entries : List RawEntry, (∀ e ∈ entries, e.updated ≠ some DateStr.invalid) →
      ∃ l, normalizeBatch hash entries = .ok l := by
  intro entries
  induction entries with
  | nil => intro _; exact ⟨[], rfl⟩
  | cons e rest ih =>
    intro h
    obtain ⟨l, hl⟩ := ih fun x hx => h x (List.mem_cons_of_mem e hx)
    have he : e.updated ≠ some DateStr.invalid := h e (List.mem_cons_self e rest)
    cases hE : normalizeEntry hash e with
    | ok n => exact ⟨n :: l, by simp [normalizeBatch, hE, hl]⟩
    | error u =>
      exfalso
      unfold normalizeEntry at hE
      cases hu : e.updated with
      | none => rw [hu] at hE; cases hE
      | some d =>
        cases d with
        | invalid => exact he hu
        | valid t => rw [hu] at hE; cases hE

theorem normalizeBatch_length (hash : String → String) :
    ∀ (entries : List RawEntry) (l : List NEntry),
      normalizeBatch hash entries = .ok l → l.length = entries.length := by
  intro entries
  induction entries with
  | nil => intro l h; cases h; rfl
  | cons e rest ih =>
    intro l h
    unfold normalizeBatch at h
    cases hE : normalizeEntry hash e with
    | error u => rw [hE] at h; cases h
    | ok m =>
      rw [hE] at h
      cases hR : normalizeBatch hash rest with
      | error u => rw [hR] at h; cases h
      | ok ms => rw [hR] at h; cases h; simp [ih ms hR]

theorem capWindow_eq_drop (m : Int) (l : List NEntry) (hm : m.natAbs ≠ 0) :
    capWindow m l = l.drop (l.length - m.natAbs) := by
  simp [capWindow, hm]

theorem capWindow_length (m : Int) (l : List NEntry) (hm : m.natAbs ≠ 0) :
    (capWindow m l).length = min m.natAbs l.length := by
  simp [capWindow, hm]
  omega

theorem capWindow_zero (m : Int) (l : List NEntry) (hm : m.natAbs = 0) :
    capWindow m l = l := by
  simp [capWindow, hm]

theorem capWindow_sublist (m : Int) (l : List NEntry) : List.Sublist (capWindow m l) l := by
  by_cases hm : m.natAbs = 0
  · rw [capWindow_zero m l hm]
  · rw [capWindow_eq_drop m l hm]
    exact List.drop_sublist _ l

theorem windowOf_mem (m : Int) (l : List NEntry) : ∀ e ∈ windowOf m l, e ∈ l := by
  intro e he
  have h1 : e ∈ sortEntries l := (capWindow_sublist m (sortEntries l)).subset he
  simpa [sortEntries] using h1

theorem windowOf_sorted (m : Int) (l : List NEntry) : List.Sorted entryLe (windowOf m l) :=
  List.Pairwise.sublist (capWindow_sublist m (sortEntries l))
    (List.sorted_insertionSort entryLe l)

theorem windowOf_ne_nil (m : Int) (l : List NEntry) (h : l ≠ []) : windowOf m l ≠ [] := by
  have hlen : (sortEntries l).length = l.length := List.length_insertionSort entryLe l
  have hpos : 0 < l.length := List.length_pos.mpr h
  unfold windowOf
  by_cases hm : m.natAbs = 0
  · rw [capWindow_zero m _ hm]
    intro hc
    rw [hc] at hlen
    simp at hlen
    omega
  · intro hc
    have h2 := congrArg List.length hc
    rw [capWindow_length m _ hm, hlen] at h2
    simp only [List.length_nil] at h2
    rcases Nat.min_eq_zero_iff.mp h2 with h3 | h3
    · exact hm h3
    · omega

theorem mem_of_getLast? {l : List NEntry} {a : NEntry} (h : l.getLast? = some a) : a ∈ l := by
  obtain ⟨hne, rfl⟩ := List.mem_getLast?_eq_getLast (x := a) h
  exact List.getLast_mem hne

theorem sorted_key_getLast :
    ∀ (w : List NEntry), List.Sorted entryLe w → ∀ (e : NEntry), w.getLast? = some e →
      ∀ x ∈ w, keyOf x ≤ keyOf e := by
  intro w
  induction w with
  | nil => intro _ e he; cases he
  | cons a t ih =>
    intro hs e he x hx
    cases t with
    | nil =>
      cases he
      rw [List.mem_singleton.mp hx]
      exact le_refl _
    | cons b t2 =>
      rw [List.getLast?_cons_cons] at he
      have hrel : ∀ y ∈ b :: t2, entryLe a y := (List.sorted_cons.mp hs).1
      rcases List.mem_cons.mp hx with h1 | h1
      · rw [h1]
        exact hrel e (mem_of_getLast? he)
      · exact ih (List.sorted_cons.mp hs).2 e he x h1

theorem findIdxOf_eq_none {p : NEntry → Bool} :
    ∀ {w : List NEntry}, (∀ e ∈ w, p e = false) → findIdxOf p w = none := by
  intro w
  induction w with
  | nil => intro _; rfl
  | cons a t ih =>
    intro h
    simp [findIdxOf, h a (List.mem_cons_self a t),
      ih fun e he => h e (List.mem_cons_of_mem a he)]

theorem findIdxOf_first {p : NEntry → Bool} :
    ∀ (w : List NEntry) (i : Nat) (hi : i < w.length),
      (∀ j (hj : j < w.length), j < i → p (w.get ⟨j, hj⟩) = false) →
      p (w.get ⟨i, hi⟩) = true → findIdxOf p w = some i := by
  intro w
  induction w with
  | nil => intro i hi; simp at hi
  | cons a t ih =>
    intro i hi hfirst hp
    cases i with
    | zero => simpa [findIdxOf] using hp
    | succ n =>
      have ha : p a = false := hfirst 0 (by simp) (Nat.succ_pos n)
      have ht := ih n (by simpa using hi)
        (fun j hj hlt => hfirst (j + 1) (by simpa using hj) (by omega)) hp
      simp [findIdxOf, ha, ht]

theorem findIdxOf_last_of_nodup :
    ∀ (w : List NEntry) (e : NEntry), w.getLast? = some e → (w.map (·.id)).Nodup →
      findIdxOf (fun x => x.id == e.id) w = some (w.length - 1) := by
  intro w
  induction w with
  | nil => intro e he; cases he
  | cons a t ih =>
    intro e he hnd
    cases t with
    | nil =>
      cases he
      simp [findIdxOf]
    | cons b t2 =>
      rw [List.getLast?_cons_cons] at he
      rw [List.map_cons] at hnd
      have hsplit := List.nodup_cons.mp hnd
      have hmem : e.id ∈ (b :: t2).map (·.id) :=
        List.mem_map_of_mem _ (mem_of_getLast? he)
      have hpa : (a.id == e.id) = false := by
        by_contra hc
        rw [Bool.not_eq_false] at hc
        exact hsplit.1 (eq_of_beq hc ▸ hmem)
      have ht := ih e he hsplit.2
      rw [show findIdxOf (fun x => x.id == e.id) (a :: b :: t2) =
            (if (a.id == e.id) = true then some 0
             else (findIdxOf (fun x => x.id == e.id) (b :: t2)).map (· + 1)) from rfl,
        if_neg (by simp [hpa]), ht, Option.map_some']
      simp only [Option.some.injEq, List.length_cons]
      omega

theorem newItemsOf_not_mem {lid : String} {w : List NEntry}
    (h : ∀ e ∈ w, e.id ≠ lid) : newItemsOf (some lid) w = w := by
  have : findIdxOf (fun e => e.id == lid) w = none :=
    findIdxOf_eq_none fun e he => by simpa using h e he
  simp [newItemsOf, this]

theorem newItemsOf_last_nodup (w : List NEntry) (e : NEntry) (he : w.getLast? = some e)
    (hnd : (w.map (·.id)).Nodup) :
    newItemsOf (some e.id) w = [] := by
  have hpos : 0 < w.length :=
    List.length_pos.mpr (List.ne_nil_of_mem (mem_of_getLast? he))
  have h := findIdxOf_last_of_nodup w e he hnd
  simp only [newItemsOf, h]
  have h2 : w.length - 1 + 1 = w.length := by omega
  rw [h2, List.drop_length]

theorem newItemsOf_sublist (c : Option String) (w : List NEntry) :
    List.Sublist (newItemsOf c w) w := by
  cases c with
  | none => exact List.Sublist.refl w
  | some lid =>
    cases hF : findIdxOf (fun e => e.id == lid) w with
    | none =>
      simp only [newItemsOf, hF]
      exact List.Sublist.refl w
    | some i =>
      simp only [newItemsOf, hF]
      exact List.drop_sublist _ w

theorem distinctIds_nodup : ∀ {l : List String}, distinctIds l = true → l.Nodup := by
  intro l
  induction l with
  | nil => intro _; exact List.nodup_nil
  | cons x xs ih =>
    intro h
    rw [distinctIds, Bool.and_eq_true] at h
    refine List.nodup_cons.mpr ⟨?_, ih h.2⟩
    have := h.1
    rw [Bool.not_eq_true'] at this
    simpa using this

theorem processNew_eq (cfg : Config) (f : String) (co : Option String) :
    ∀ es : List NEntry,
      processNew cfg f co es =
        ((es.filter fun e =>
            acceptType cfg.filingTypes (detectFilingType e.title e.summary)).map (mkAlert f co),
         if cfg.webhookUrl == "" then []
         else (es.filter fun e =>
            acceptType cfg.filingTypes (detectFilingType e.title e.summary)).map (mkHook f)) := by
  intro es
  induction es with
  | nil => simp [processNew]
  | cons a t ih =>
    cases h : acceptType cfg.filingTypes (detectFilingType a.title a.summary) with
    | true =>
      by_cases hw : cfg.webhookUrl == "" <;>
        simp [processNew, ih, h, hw, List.filter_cons]
    | false =>
      simp [processNew, ih, h, List.filter_cons]

theorem pollFeed_empty (hash : String → String) (cfg : Config) (f : String)
    (co c : Option String) (b : List RawEntry) (hb : b.isEmpty = true) :
    pollFeed hash cfg f co c b = .ok (c, [], []) := by
  unfold pollFeed
  rw [hb]
  simp

theorem pollFeed_err (hash : String → String) (cfg : Config) (f : String)
    (co c : Option String) (b : List RawEntry) (u : Unit)
    (hb : b.isEmpty = false) (hN : normalizeBatch hash b = .error u) :
    pollFeed hash cfg f co c b = .error u := by
  unfold pollFeed
  rw [hb]
  simp [hN]

theorem pollFeed_components (hash : String → String) (cfg : Config) (f : String)
    (co stored : Option String) (entries : List RawEntry) (l : List NEntry)
    (hne : entries.isEmpty = false) (hnorm : normalizeBatch hash entries = .ok l) :
    ∃ c1, pollFeed hash cfg f co stored entries =
      .ok (c1, processNew cfg f co
        (newItemsOf (readCursor stored) (windowOf cfg.maxEntriesPerFeed l))) := by
  unfold pollFeed
  rw [hne]
  simp only [Bool.false_eq_true, if_false, hnorm]
  exact ⟨_, rfl⟩

theorem pollFeed_eq (hash : String → String) (cfg : Config) (f : String)
    (co stored : Option String) (entries : List RawEntry) (l : List NEntry) (e : NEntry)
    (hne : entries ≠ []) (hnorm : normalizeBatch hash entries = .ok l)
    (he : (windowOf cfg.maxEntriesPerFeed l).getLast? = some e) (hid : e.id ≠ "") :
    pollFeed hash cfg f co stored entries =
      .ok (some e.id, processNew cfg f co
        (newItemsOf (readCursor stored) (windowOf cfg.maxEntriesPerFeed l))) := by
  have hEmp : entries.isEmpty = false := by simpa [List.isEmpty_iff] using hne
  have hjs : jsTruthy (some e.id) = true := by simp [jsTruthy, hid]
  unfold pollFeed
  rw [hEmp]
  simp only [Bool.false_eq_true, if_false, hnorm, he, hjs, if_true]

theorem alert_ids_sublist (hash : String → String) (cfg : Config) (f : String)
    (co c : Option String) (b : List RawEntry) :
    List.Sublist ((alertsOf (pollFeed hash cfg f co c b)).map Alert.filingId)
      (pollNewIds hash cfg.maxEntriesPerFeed c b) := by
  cases hb : b.isEmpty with
  | true =>
    rw [pollFeed_empty hash cfg f co c b hb]
    simp [alertsOf, pollNewIds, hb]
  | false =>
    cases hN : normalizeBatch hash b with
    | error u =>
      rw [pollFeed_err hash cfg f co c b u hb hN]
      simp [alertsOf, pollNewIds, hb, hN]
    | ok l =>
      obtain ⟨c1, hP⟩ := pollFeed_components hash cfg f co c b l hb hN
      rw [hP]
      simp only [alertsOf, pollNewIds, hb, Bool.false_eq_true, if_false, hN,
        processNew_eq, List.map_map]
      exact List.Sublist.map _ (List.filter_sublist _)

theorem runPolls_fresh (hash : String → String) (cfg : Config) (f : String)
    (co : Option String) :
    ∀ (batches : List (List RawEntry)) (c : Option String) (seen : List String),
      freshChain hash cfg f co c seen batches = true →
      ((runPolls hash cfg f co c batches).2.map Alert.filingId).Nodup ∧
      ∀ x ∈ (runPolls hash cfg f co c batches).2.map Alert.filingId, x ∉ seen := by
  intro batches
  induction batches with
  | nil =>
    intro c seen _
    exact ⟨List.nodup_nil, by simp [runPolls]⟩
  | cons b rest ih =>
    intro c seen h
    rw [freshChain, Bool.and_eq_true, Bool.and_eq_true] at h
    obtain ⟨⟨h1, h2⟩, h3⟩ := h
    have hAsub := alert_ids_sublist hash cfg f co c b
    have hIdsNd : (pollNewIds hash cfg.maxEntriesPerFeed c b).Nodup := distinctIds_nodup h1
    have hSeen : ∀ x ∈ pollNewIds hash cfg.maxEntriesPerFeed c b, x ∉ seen := by
      intro x hx
      have := List.all_eq_true.mp h2 x hx
      rw [Bool.not_eq_true'] at this
      simpa using this
    cases hP : pollFeed hash cfg f co c b with
    | error u =>
      have hNext : pollNext hash cfg f co c b = c := by simp [pollNext, hP]
      have hIds : pollNewIds hash cfg.maxEntriesPerFeed c b = [] := by
        cases hb : b.isEmpty with
        | true =>
          rw [pollFeed_empty hash cfg f co c b hb] at hP
          cases hP
        | false =>
          cases hN : normalizeBatch hash b with
          | ok l =>
            obtain ⟨c1, hC⟩ := pollFeed_components hash cfg f co c b l hb hN
            rw [hC] at hP
            cases hP
          | error v => simp [pollNewIds, hb, hN]
      rw [hNext, hIds, List.append_nil] at h3
      have hrun : runPolls hash cfg f co c (b :: rest) = runPolls hash cfg f co c rest := by
        rw [runPolls, hP]
      rw [hrun]
      exact ih c seen h3
    | ok r =>
      have hNext : pollNext hash cfg f co c b = r.1 := by simp [pollNext, hP]
      rw [hNext] at h3
      obtain ⟨hBnd, hBseen⟩ := ih r.1 (seen ++ pollNewIds hash cfg.maxEntriesPerFeed c b) h3
      have hA : alertsOf (pollFeed hash cfg f co c b) = r.2.1 := by simp [alertsOf, hP]
      rw [hA] at hAsub
      have hrun : runPolls hash cfg f co c (b :: rest) =
          ((runPolls hash cfg f co r.1 rest).1,
            r.2.1 ++ (runPolls hash cfg f co r.1 rest).2) := by
        rw [runPolls, hP]
      rw [hrun]
      simp only [List.map_append]
      refine ⟨?_, ?_⟩
      · rw [List.nodup_append]
        refine ⟨hIdsNd.sublist hAsub, hBnd, ?_⟩
        intro x hxA hxB
        exact hBseen x hxB (List.mem_append_right seen (hAsub.subset hxA))
      · intro x hx
        rcases List.mem_append.mp hx with hxA | hxB
        · exact hSeen x (hAsub.subset hxA)
        · intro hs
          exact hBseen x hxB (List.mem_append_left _ hs)

theorem normalizeBatch_ne_nil (hash : String → String) (entries : List RawEntry)
    (l : List NEntry) (hne : entries ≠ []) (hnorm : normalizeBatch hash entries = .ok l) :
    l ≠ [] := by
  intro hl
  have hlen := normalizeBatch_length hash entries l hnorm
  rw [hl] at hlen
  have h0 : entries.length = 0 := by simpa using hlen.symm
  exact hne (List.length_eq_zero.mp h0)

theorem str_of_data_nil {s : String} (h : s.data = []) : s = "" :=
  String.ext (h.trans rfl)

theorem lowerStr_ne_empty {t : String} (ht : t ≠ "") : lowerStr t ≠ "" := by
  intro hc
  apply ht
  have hd : t.data.map Char.toLower = ([] : List Char) := congrArg String.data hc
  exact str_of_data_nil (List.map_eq_nil_iff.mp hd)

theorem hasSubstr_nil (l : List Char) : hasSubstr [] l = true := by
  cases l <;> rfl

theorem acceptType_none_false (fts : List String) (h1 : fts ≠ [])
    (h2 : ∀ t ∈ fts, t ≠ "") : acceptType fts none = false := by
  have hfe : fts.isEmpty = false := by simpa [List.isEmpty_iff] using h1
  unfold acceptType
  rw [hfe]
  simp only [Bool.false_eq_true, if_false, List.any_eq_false]
  intro t ht
  have hlow : lowerStr (jsStr none) = "" := rfl
  have htne : lowerStr t ≠ "" := lowerStr_ne_empty (h2 t ht)
  have hdne : (lowerStr t).data ≠ [] := fun hdc => htne (str_of_data_nil hdc)
  rw [hlow]
  cases hld : (lowerStr t).data with
  | nil => exact absurd hld hdne
  | cons a as =>
    have hb1 : (lowerStr t == "") = false := by
      rw [beq_eq_false_iff_ne]
      exact htne
    have hb3 : hasSubstr (a :: as) "".data = false := by
      rw [show ("".data : List Char) = [] from rfl]
      rfl
    rw [hb1, hb3]
    simp

theorem acceptType_all (fts : List String) (h : "" ∈ fts) :
    ∀ d, acceptType fts d = true := by
  intro d
  have hfe : fts.isEmpty = false := by
    simpa [List.isEmpty_iff] using List.ne_nil_of_mem h
  unfold acceptType
  rw [hfe]
  simp only [Bool.false_eq_true, if_false, List.any_eq_true]
  refine ⟨"", h, ?_⟩
  rw [show ((lowerStr "").data : List Char) = [] from rfl, hasSubstr_nil, Bool.or_true]

/-- C8: the classifier on the three stated examples. Amended: the second
example returns the bare token 4, not Form 4, because the fixed token 4
matches with a word boundary before the Form-number fallback is tried. -/
theorem claim_C8 :
    detectFilingType (some "Apple Inc files quarterly report 10-Q") none = some "10-Q"
    ∧ detectFilingType (some "Form 4 filed") none = some "4"
    ∧ detectFilingType (some "unrelated announcement") (some "nothing material") = none := by
  refine ⟨?_, ?_, ?_⟩ <;> rfl

/-- C8 counterexample: classify of Form 4 filed is not Form 4 on the code. -/
theorem claim_C8_cex :
    detectFilingType (some "Form 4 filed") none ≠ some "Form 4" := by
  decide

/-- C2: the new-entry set is everything strictly after the first position of
lastSeenId in the window when it occurs there, the entire window when
lastSeenId is null, and the entire window when lastSeenId is absent. -/
theorem claim_C2 (last : String) (w : List NEntry) :
    (∀ i (hi : i < w.length),
      (∀ j (hj : j < w.length), j < i → (w.get ⟨j, hj⟩).id ≠ last) →
      (w.get ⟨i, hi⟩).id = last →
      newItemsOf (some last) w = w.drop (i + 1))
    ∧ newItemsOf none w = w
    ∧ ((∀ e ∈ w, e.id ≠ last) → newItemsOf (some last) w = w) := by
  refine ⟨?_, rfl, fun h => newItemsOf_not_mem h⟩
  intro i hi hfirst hid
  have hF := @findIdxOf_first (fun e => e.id == last) w i hi
    (fun j hj hlt => by simpa using hfirst j hj hlt) (by simpa using hid)
  simp [newItemsOf, hF]

/-- C2 witness at a concrete window. -/
theorem claim_C2_witness :
    newItemsOf (some "a") [nA, nB] = [nB] ∧ newItemsOf none [nA, nB] = [nA, nB] := by
  obtain ⟨h1, h2, _⟩ := claim_C2 "a" [nA, nB]
  refine ⟨?_, h2⟩
  have h3 := h1 0 (by decide) (fun j hj hlt => absurd hlt (Nat.not_lt_zero j)) (by decide)
  exact h3.trans (by decide)

/-- C4 (amended): the normalized id is the source id when truthy, else the
link when truthy, else a hash of the title when truthy, else of the summary
when truthy, else of the empty string; hence two entries with no id and no
link and the same truthy title get the same id even when their summaries
differ. -/
theorem claim_C4 (hash : String → String) (e1 e2 : RawEntry) :
    (∀ e, canonicalId hash e = canonicalIdSpec hash e)
    ∧ (jsTruthy e1.id = false → jsTruthy e1.link = false →
       jsTruthy e2.id = false → jsTruthy e2.link = false →
       jsTruthy e1.title = true → e1.title = e2.title →
       canonicalId hash e1 = canonicalId hash e2) := by
  constructor
  · intro e
    unfold canonicalId canonicalIdSpec
    by_cases h3 : jsTruthy e.title <;> by_cases h4 : jsTruthy e.summary <;>
      simp [h3, h4]
  · intro h1 h2 h3 h4 h5 h6
    unfold canonicalId
    rw [← h6]
    simp [h1, h2, h3, h4, h5]

/-- C4 counterexample: with no id and no link, two entries sharing a title
but differing in summary get the same id, though the hash stand-in separates
the two concatenations, refuting the title-concatenated-with-summary claim. -/
theorem claim_C4_cex :
    canonicalId hashModel eS1 = canonicalId hashModel eS2
    ∧ hashModel ("T" ++ "S1") ≠ hashModel ("T" ++ "S2") := by
  refine ⟨rfl, by decide⟩

/-- C4 witness at concrete entries. -/
theorem claim_C4_witness :
    canonicalId hashModel eS1 = canonicalIdSpec hashModel eS1
    ∧ canonicalId hashModel eS1 = canonicalId hashModel eS2 :=
  ⟨(claim_C4 hashModel eS1 eS2).1 eS1,
   (claim_C4 hashModel eS1 eS2).2 (by decide) (by decide) (by decide) (by decide)
     (by decide) rfl⟩

/-- C5 (amended): when every timestamp is null or parseable, normalization
succeeds and the batch is sorted ascending by the key that reads a null
timestamp as zero; a present but unparseable timestamp instead makes
normalization throw and aborts the poll. -/
theorem claim_C5 (hash : String → String) (entries : List RawEntry)
    (h : ∀ e ∈ entries, e.updated ≠ some DateStr.invalid) :
    ∃ l, normalizeBatch hash entries = .ok l
      ∧ List.Sorted entryLe (sortEntries l)
      ∧ (sortEntries l).Perm l
      ∧ ∀ n ∈ l, n.updated = none → keyOf n = 0 := by
  obtain ⟨l, hl⟩ := normalizeBatch_ok_of hash entries h
  exact ⟨l, hl, List.sorted_insertionSort entryLe l, List.perm_insertionSort entryLe l,
    fun n _ hu => by simp [keyOf, hu]⟩

/-- C5 counterexample: one unparseable timestamp makes the whole poll throw. -/
theorem claim_C5_cex :
    normalizeBatch hashModel [rBad] = .error ()
    ∧ pollFeed hashModel cfgAll "f" none none [rBad] = .error () :=
  ⟨rfl, rfl⟩

/-- C5 witness at a concrete batch. -/
theorem claim_C5_witness :
    (∀ e ∈ [rB, rA], e.updated ≠ some DateStr.invalid)
    ∧ ∃ l, normalizeBatch hashModel [rB, rA] = .ok l
      ∧ List.Sorted entryLe (sortEntries l)
      ∧ (sortEntries l).Perm l
      ∧ ∀ n ∈ l, n.updated = none → keyOf n = 0 :=
  ⟨by decide, claim_C5 hashModel [rB, rA] (by decide)⟩

/-- C6 (amended): for every nonzero maxEntriesPerFeed the considered window
is exactly the most recent natAbs entries of the ordered batch (never more),
the cursor advances to the id of the last windowed entry, and every emitted
record comes from the window; with maxEntriesPerFeed zero the window is
instead the whole batch. -/
theorem claim_C6 (m : Int) (l : List NEntry) (hm : m.natAbs ≠ 0) :
    capWindow m l = l.drop (l.length - m.natAbs)
    ∧ (capWindow m l).length = min m.natAbs l.length
    ∧ ∀ (hash : String → String) (f : String) (co c : Option String)
        (entries : List RawEntry) (l2 : List NEntry) (e : NEntry),
        (∀ s, hash s ≠ "") → entries ≠ [] →
        normalizeBatch hash entries = .ok l2 →
        (windowOf m l2).getLast? = some e →
        pollNext hash ⟨[], m, ""⟩ f co c entries = some e.id
        ∧ ∀ a ∈ alertsOf (pollFeed hash ⟨[], m, ""⟩ f co c entries),
            a.filingId ∈ (windowOf m l2).map (·.id) := by
  refine ⟨capWindow_eq_drop m l hm, capWindow_length m l hm, ?_⟩
  intro hash f co c entries l2 e hh hne hnorm he
  have hid : e.id ≠ "" :=
    normalizeBatch_ids hash entries l2 hh hnorm e (windowOf_mem m l2 e (mem_of_getLast? he))
  have hP := pollFeed_eq hash ⟨[], m, ""⟩ f co c entries l2 e hne hnorm he hid
  constructor
  · simp [pollNext, hP]
  · intro a ha
    rw [hP] at ha
    simp only [alertsOf] at ha
    rw [processNew_eq] at ha
    obtain ⟨x, hx, hEq⟩ := List.mem_map.mp ha
    have hxni : x ∈ newItemsOf (readCursor c) (windowOf m l2) := (List.mem_filter.mp hx).1
    have hxw : x ∈ windowOf m l2 := (newItemsOf_sublist _ _).subset hxni
    rw [← hEq]
    exact List.mem_map_of_mem _ hxw

/-- C6 counterexample: maxEntriesPerFeed zero leaves the window uncapped. -/
theorem claim_C6_cex :
    (capWindow 0 [nA]).length = 1 ∧ ¬ ((capWindow 0 [nA]).length ≤ (0 : Int).natAbs) := by
  decide

/-- C6 witness: maxEntriesPerFeed two and five distinct entries, no prior
cursor: the window is the two most recent and the cursor lands on e5. -/
theorem claim_C6_witness :
    capWindow 2 n5 = n5.drop (n5.length - (2 : Int).natAbs)
    ∧ (capWindow 2 n5).length = min (2 : Int).natAbs n5.length
    ∧ pollNext hashModel ⟨[], 2, ""⟩ "f" none none r5 = some "e5" := by
  obtain ⟨h1, h2, h3⟩ := claim_C6 2 n5 (by decide)
  refine ⟨h1, h2, ?_⟩
  obtain ⟨h4, _⟩ := h3 hashModel "f" none none r5 n5 nE5 hashModel_ne_empty
    (by decide) rfl (by decide)
  exact h4

/-- C7: whenever a non-empty batch normalizes, the poll ends by writing the
cursor to the id of the last entry of the capped window, for every value of
the filingTypes filter, and the emitted records are exactly the accepted
members of the new-entry set, so rejected entries are not emitted yet still
see the cursor advance. -/
theorem claim_C7 (hash : String → String) (m : Int) (wh f : String)
    (co stored : Option String) (entries : List RawEntry) (l : List NEntry)
    (hh : ∀ s, hash s ≠ "") (hne : entries ≠ [])
    (hnorm : normalizeBatch hash entries = .ok l) :
    ∃ e, (windowOf m l).getLast? = some e ∧
      ∀ fts : List String,
        pollFeed hash ⟨fts, m, wh⟩ f co stored entries =
          .ok (some e.id,
            ((newItemsOf (readCursor stored) (windowOf m l)).filter fun x =>
               acceptType fts (detectFilingType x.title x.summary)).map (mkAlert f co),
            if wh == "" then []
            else ((newItemsOf (readCursor stored) (windowOf m l)).filter fun x =>
               acceptType fts (detectFilingType x.title x.summary)).map (mkHook f)) := by
  have hlne : l ≠ [] := normalizeBatch_ne_nil hash entries l hne hnorm
  have hwne : windowOf m l ≠ [] := windowOf_ne_nil m l hlne
  refine ⟨(windowOf m l).getLast hwne, List.getLast?_eq_getLast_of_ne_nil hwne, ?_⟩
  intro fts
  have he : (windowOf m l).getLast? = some ((windowOf m l).getLast hwne) :=
    List.getLast?_eq_getLast_of_ne_nil hwne
  have hid : ((windowOf m l).getLast hwne).id ≠ "" :=
    normalizeBatch_ids hash entries l hh hnorm _
      (windowOf_mem m l _ (mem_of_getLast? he))
  have hP := pollFeed_eq hash ⟨fts, m, wh⟩ f co stored entries l
    ((windowOf m l).getLast hwne) hne hnorm he hid
  rw [hP, processNew_eq]

/-- C7 witness: one entry classified 10-Q against a 10-K filter is not
emitted, yet the cursor is written to its id. -/
theorem claim_C7_witness :
    pollFeed hashModel ⟨["10-K"], 50, ""⟩ "f" none none [rQ] = .ok (some "q1", [], []) := by
  obtain ⟨e, he, hall⟩ := claim_C7 hashModel 50 "" "f" none none [rQ] [nQ]
    hashModel_ne_empty (by decide) rfl
  have he2 : (windowOf (50 : Int) [nQ]).getLast? = some nQ := by decide
  rw [he2] at he
  injection he with hEq
  subst hEq
  rw [hall ["10-K"]]
  rfl

/-- C9 (amended): when the ids of the capped window are pairwise distinct,
polling again with the unchanged batch from the state the first poll left
behind emits nothing and keeps the cursor. -/
theorem claim_C9 (hash : String → String) (cfg : Config) (f : String)
    (co stored : Option String) (entries : List RawEntry) (l : List NEntry)
    (c1 : Option String) (a1 : List Alert) (w1 : List WebhookPayload)
    (hh : ∀ s, hash s ≠ "")
    (hnorm : normalizeBatch hash entries = .ok l)
    (hnd : ((windowOf cfg.maxEntriesPerFeed l).map (·.id)).Nodup)
    (h1 : pollFeed hash cfg f co stored entries = .ok (c1, a1, w1)) :
    pollFeed hash cfg f co c1 entries = .ok (c1, [], []) := by
  by_cases hne : entries = []
  · subst hne
    rw [pollFeed_empty hash cfg f co stored [] rfl] at h1
    injection h1 with h2
    have hc : stored = c1 := congrArg Prod.fst h2
    rw [← hc]
    exact pollFeed_empty hash cfg f co stored [] rfl
  · have hlne : l ≠ [] := normalizeBatch_ne_nil hash entries l hne hnorm
    have hwne := windowOf_ne_nil cfg.maxEntriesPerFeed l hlne
    have he : (windowOf cfg.maxEntriesPerFeed l).getLast? =
        some ((windowOf cfg.maxEntriesPerFeed l).getLast hwne) :=
      List.getLast?_eq_getLast_of_ne_nil hwne
    have hid : ((windowOf cfg.maxEntriesPerFeed l).getLast hwne).id ≠ "" :=
      normalizeBatch_ids hash entries l hh hnorm _ (windowOf_mem _ _ _ (mem_of_getLast? he))
    have hP := pollFeed_eq hash cfg f co stored entries l _ hne hnorm he hid
    rw [hP] at h1
    injection h1 with h2
    have hc : some ((windowOf cfg.maxEntriesPerFeed l).getLast hwne).id = c1 :=
      congrArg Prod.fst h2
    have hP2 := pollFeed_eq hash cfg f co c1 entries l _ hne hnorm he hid
    rw [hP2, ← hc]
    have hrc : readCursor (some ((windowOf cfg.maxEntriesPerFeed l).getLast hwne).id) =
        some ((windowOf cfg.maxEntriesPerFeed l).getLast hwne).id := by
      simp [readCursor, jsTruthy, hid]
    rw [hrc, newItemsOf_last_nodup _ _ he hnd]
    rfl

/-- C9 witness: the second poll of an unchanged two-entry batch with distinct
ids emits nothing. -/
theorem claim_C9_witness :
    pollFeed hashModel cfgAll "f" none (some "b") [rA, rB] = .ok (some "b", [], []) :=
  claim_C9 hashModel cfgAll "f" none none [rA, rB] [nA, nB] (some "b")
    [mkAlert "f" none nA, mkAlert "f" none nB] [] hashModel_ne_empty rfl (by decide) rfl

/-- C9 counterexample: two entries sharing a canonical id in the window make
the second poll of the unchanged batch emit two more records. -/
theorem claim_C9_cex :
    cursorOf (pollFeed hashModel cfgAll "f" none none [rT1, rU2, rT3]) = some "#T"
    ∧ (alertsOf (pollFeed hashModel cfgAll "f" none (some "#T") [rT1, rU2, rT3])).length = 2 := by
  decide

/-- C10: an entry the classifier leaves unlabeled is never emitted to the
output sink or the webhook when the filter list is non-empty with no empty
token; a filter list containing the empty string accepts every entry. -/
theorem claim_C10 (hash : String → String) (m : Int) (wh f : String)
    (co c : Option String) (fts : List String) (entries : List RawEntry) (l : List NEntry)
    (hh : ∀ s, hash s ≠ "") (hne : entries ≠ [])
    (hnorm : normalizeBatch hash entries = .ok l) :
    (fts ≠ [] → (∀ t ∈ fts, t ≠ "") →
      acceptType fts none = false ∧
      ∀ e ∈ newItemsOf (readCursor c) (windowOf m l),
        detectFilingType e.title e.summary = none →
        mkAlert f co e ∉ alertsOf (pollFeed hash ⟨fts, m, wh⟩ f co c entries) ∧
        mkHook f e ∉ hooksOf (pollFeed hash ⟨fts, m, wh⟩ f co c entries))
    ∧ ("" ∈ fts →
      (∀ d, acceptType fts d = true) ∧
      alertsOf (pollFeed hash ⟨fts, m, wh⟩ f co c entries) =
        (newItemsOf (readCursor c) (windowOf m l)).map (mkAlert f co)) := by
  have hlne : l ≠ [] := normalizeBatch_ne_nil hash entries l hne hnorm
  have hwne := windowOf_ne_nil m l hlne
  have he : (windowOf m l).getLast? = some ((windowOf m l).getLast hwne) :=
    List.getLast?_eq_getLast_of_ne_nil hwne
  have hid : ((windowOf m l).getLast hwne).id ≠ "" :=
    normalizeBatch_ids hash entries l hh hnorm _ (windowOf_mem _ _ _ (mem_of_getLast? he))
  have hP := pollFeed_eq hash ⟨fts, m, wh⟩ f co c entries l _ hne hnorm he hid
  have hA : alertsOf (pollFeed hash ⟨fts, m, wh⟩ f co c entries) =
      ((newItemsOf (readCursor c) (windowOf m l)).filter fun x =>
        acceptType fts (detectFilingType x.title x.summary)).map (mkAlert f co) := by
    rw [hP, processNew_eq]
    rfl
  have hH : hooksOf (pollFeed hash ⟨fts, m, wh⟩ f co c entries) =
      (if wh == "" then []
       else ((newItemsOf (readCursor c) (windowOf m l)).filter fun x =>
         acceptType fts (detectFilingType x.title x.summary)).map (mkHook f)) := by
    rw [hP, processNew_eq]
    rfl
  constructor
  · intro h1 h2
    have hacc := acceptType_none_false fts h1 h2
    refine ⟨hacc, ?_⟩
    intro x hx hdet
    constructor
    · rw [hA]
      intro hmem
      obtain ⟨y, hy, hEq⟩ := List.mem_map.mp hmem
      have hyAcc : acceptType fts (detectFilingType y.title y.summary) = true :=
        (List.mem_filter.mp hy).2
      have hdy : detectFilingType y.title y.summary = detectFilingType x.title x.summary :=
        congrArg Alert.filingType hEq
      rw [hdy, hdet, hacc] at hyAcc
      exact Bool.noConfusion hyAcc
    · rw [hH]
      cases hwb : (wh == "") with
      | true => simp [hwb]
      | false =>
        simp only [hwb, Bool.false_eq_true, if_false]
        intro hmem
        obtain ⟨y, hy, hEq⟩ := List.mem_map.mp hmem
        have hyAcc : acceptType fts (detectFilingType y.title y.summary) = true :=
          (List.mem_filter.mp hy).2
        have hdy : detectFilingType y.title y.summary = detectFilingType x.title x.summary :=
          congrArg WebhookPayload.filingType hEq
        rw [hdy, hdet, hacc] at hyAcc
        exact Bool.noConfusion hyAcc
  · intro hmem0
    have hacc := acceptType_all fts hmem0
    refine ⟨hacc, ?_⟩
    rw [hA, List.filter_eq_self.mpr fun a _ => hacc (detectFilingType a.title a.summary)]

/-- C10 witness: an unlabeled entry is suppressed by the filter 10-K but
accepted by a filter containing the empty string. -/
theorem claim_C10_witness :
    acceptType ["10-K"] none = false
    ∧ mkAlert "f" none nUnk ∉ alertsOf (pollFeed hashModel ⟨["10-K"], 50, ""⟩ "f" none none [rUnk])
    ∧ (∀ d, acceptType [""] d = true)
    ∧ alertsOf (pollFeed hashModel ⟨[""], 50, "hook"⟩ "f" none none [rUnk]) =
        (newItemsOf (readCursor none) (windowOf 50 [nUnk])).map (mkAlert "f" none) := by
  obtain ⟨hA, _⟩ := claim_C10 hashModel 50 "" "f" none none ["10-K"] [rUnk] [nUnk]
    hashModel_ne_empty (by decide) rfl
  obtain ⟨h1, h2⟩ := hA (by decide) (by decide)
  obtain ⟨_, hB⟩ := claim_C10 hashModel 50 "hook" "f" none none [""] [rUnk] [nUnk]
    hashModel_ne_empty (by decide) rfl
  obtain ⟨h3, h4⟩ := hB (by decide)
  exact ⟨h1, (h2 nUnk (by decide) rfl).1, h3, h4⟩

/-- C3 (amended): when the stored cursor id occurs in the current capped
window, the poll moves the cursor to the last entry of the window, whose
time key is at or after that of the stored entry; when the stored id is
absent from the window the cursor can revert to an older entry. -/
theorem claim_C3 (hash : String → String) (cfg : Config) (f : String)
    (co : Option String) (sid : String) (entries : List RawEntry) (l : List NEntry) (i : Nat)
    (hh : ∀ s, hash s ≠ "") (hsid : sid ≠ "") (hne : entries ≠ [])
    (hnorm : normalizeBatch hash entries = .ok l)
    (hi : i < (windowOf cfg.maxEntriesPerFeed l).length)
    (hid : ((windowOf cfg.maxEntriesPerFeed l).get ⟨i, hi⟩).id = sid) :
    ∃ e, (windowOf cfg.maxEntriesPerFeed l).getLast? = some e ∧
      pollNext hash cfg f co (some sid) entries = some e.id ∧
      keyOf ((windowOf cfg.maxEntriesPerFeed l).get ⟨i, hi⟩) ≤ keyOf e := by
  have hlne : l ≠ [] := normalizeBatch_ne_nil hash entries l hne hnorm
  have hwne := windowOf_ne_nil cfg.maxEntriesPerFeed l hlne
  have he : (windowOf cfg.maxEntriesPerFeed l).getLast? =
      some ((windowOf cfg.maxEntriesPerFeed l).getLast hwne) :=
    List.getLast?_eq_getLast_of_ne_nil hwne
  have hidl : ((windowOf cfg.maxEntriesPerFeed l).getLast hwne).id ≠ "" :=
    normalizeBatch_ids hash entries l hh hnorm _ (windowOf_mem _ _ _ (mem_of_getLast? he))
  refine ⟨(windowOf cfg.maxEntriesPerFeed l).getLast hwne, he, ?_, ?_⟩
  · have hP := pollFeed_eq hash cfg f co (some sid) entries l _ hne hnorm he hidl
    simp [pollNext, hP]
  · exact sorted_key_getLast _ (windowOf_sorted _ _) _ he _
      (List.get_mem (windowOf cfg.maxEntriesPerFeed l) i hi)

/-- C3 witness: cursor a found in the window advances the cursor to b, whose
time key is at or after that of a. -/
theorem claim_C3_witness :
    pollNext hashModel cfgAll "f" none (some "a") [rA, rB] = some "b"
    ∧ keyOf nA ≤ keyOf nB := by
  obtain ⟨e, he, h1, h2⟩ := claim_C3 hashModel cfgAll "f" none "a" [rA, rB] [nA, nB] 0
    hashModel_ne_empty (by decide) (by decide) rfl (by decide) (by decide)
  have he2 : (windowOf cfgAll.maxEntriesPerFeed [nA, nB]).getLast? = some nB := by decide
  rw [he2] at he
  injection he with hEq
  subst hEq
  exact ⟨h1, h2⟩

/-- C3 counterexample: after the feed drops entry b, the window holds only
the chronologically older a; the poll rewrites the cursor from b back to a. -/
theorem claim_C3_cex :
    pollNext hashModel cfgAll "f" none none [rA, rB] = some "b"
    ∧ pollNext hashModel cfgAll "f" none (some "b") [rA] = some "a"
    ∧ keyOf nA < keyOf nB := by
  decide

/-- C1 (amended): across any sequence of polls in which no computed
new-entry set repeats an id internally or re-presents an id from an earlier
new-entry set, no filingId is emitted twice; after rotation, when the stored
cursor id is absent from the window, the bounded-replay policy can re-present
ids and duplicates occur. -/
theorem claim_C1 (hash : String → String) (cfg : Config) (f : String)
    (co c0 : Option String) (batches : List (List RawEntry))
    (h : freshChain hash cfg f co c0 [] batches = true) :
    ((runPolls hash cfg f co c0 batches).2.map Alert.filingId).Nodup :=
  (runPolls_fresh hash cfg f co batches c0 [] h).1

/-- C1 witness: an append-only pair of polls satisfies the freshness premise
and emits each id once. -/
theorem claim_C1_witness :
    freshChain hashModel cfgAll "f" none none [] [[rA], [rA, rB]] = true
    ∧ ((runPolls hashModel cfgAll "f" none none [[rA], [rA, rB]]).2.map Alert.filingId).Nodup :=
  ⟨by decide, claim_C1 hashModel cfgAll "f" none none [[rA], [rA, rB]] (by decide)⟩

/-- C1 counterexample: a rotation that drops the cursor entry replays the
whole window, emitting the id a in two output records. -/
theorem claim_C1_cex :
    ¬ ((runPolls hashModel cfgAll "f" none none [[rA, rB], [rA]]).2.map Alert.filingId).Nodup := by
  decide
